import Mathlib

/-!
Verification of `email_header_parser.py`.

A shallow embedding of the email header parser: the three body-artifact
regex searches (`pull_artifacts`), the per-message header normalizer
(`parse_header`), the schema accumulator (`add_email_header_tracker`),
directory loading (`load_data`), table writing (`write_data_to_file`)
and the `main` argument check, together with theorems settling the
specification's claims about them.

Strings are worked on as `List Char` (the `.data` of a `String`);
regular-expression searches are embedded as explicit backtracking
matchers that scan the text left to right, exactly as `re.search`
does for the three concrete patterns used by the program.
-/

namespace EmailHeaderParser

/-! ## Python `str.strip()` on ASCII whitespace -/

/-- Python ASCII whitespace as stripped by `str.strip()`:
space, tab, newline, carriage return, vertical tab, form feed. -/
def isPySpace (c : Char) : Bool :=
  c = ' ' || c = '\t' || c = '\n' || c = '\r' || c = '\x0B' || c = '\x0C'

/-- `str.strip()`: remove leading and trailing whitespace. -/
def pyStrip (cs : List Char) : List Char :=
  ((cs.dropWhile isPySpace).reverse.dropWhile isPySpace).reverse

/-! ## Generic leftmost scan, embedding `re.search`

`re.search` tries to match the pattern at position 0, 1, 2, … of the
text and returns the first (leftmost) success.  `scanFirst f cs` applies
the per-position matcher `f` to each suffix of `cs` (including the empty
suffix at the end) and returns the first `some`. -/

def scanFirst (f : List Char → Option α) : List Char → Option α
  | [] => f []
  | c :: rest =>
    match f (c :: rest) with
    | some r => some r
    | none => scanFirst f rest

/-! ## The keyword patterns of `pull_artifacts`

The username search embeds `re.search('(username|email) *:(.*)', body, re.IGNORECASE)`
and the password search embeds
`re.search('(email password|password|pass|pd|ps) *:(.*)', body, re.IGNORECASE)`.
At each position the engine tries the alternatives left to right; for the
successful alternative it then matches `' *'` (greedy spaces) followed by
`':'`, and the second group `(.*)` captures the rest of the line. -/

/-- Case-insensitive match of a (lower-case) pattern literal against the
head of the input; returns the remaining input on success. -/
def matchCI : List Char → List Char → Option (List Char)
  | [], cs => some cs
  | _ :: _, [] => none
  | p :: ps, c :: cs => if c.toLower = p then matchCI ps cs else none

/-- Match `' *:'`: greedy run of spaces followed by a colon.  Since a colon
is not a space, greedy matching with backtracking is the same as dropping
all spaces and requiring a colon. -/
def spacesColon (cs : List Char) : Option (List Char) :=
  match cs.dropWhile (fun c => c = ' ') with
  | c :: r => if c = ':' then some r else none
  | [] => none

/-- The capture of `(.*)` (no DOTALL): everything up to the next newline. -/
def restOfLine (cs : List Char) : List Char :=
  cs.takeWhile (fun c => c ≠ '\n')

/-- Try the alternatives in order at the current position: a keyword,
then spaces and a colon; on success capture the rest of the line (group 2).
On failure of the tail of the pattern the engine backtracks into the
alternation, i.e. tries the next alternative at the same position. -/
def tryKeyAt (kws : List (List Char)) (cs : List Char) : Option (List Char) :=
  match kws with
  | [] => none
  | k :: ks =>
    match matchCI k cs with
    | some r =>
      match spacesColon r with
      | some r2 => some (restOfLine r2)
      | none => tryKeyAt ks cs
    | none => tryKeyAt ks cs

/-- The alternatives of the username pattern `(username|email)`. -/
def userKeywords : List (List Char) := ["username".data, "email".data]

/-- The alternatives of the password pattern
`(email password|password|pass|pd|ps)`. -/
def pwdKeywords : List (List Char) :=
  ["email password".data, "password".data, "pass".data, "pd".data, "ps".data]

/-! ## The IP pattern

Embeds `re.search(':*(\d{1,3}\.\d{1,3}\.\d{1,3}\.\d{1,3})', body)`:
a greedy run of colons, then four greedy 1–3 digit groups separated by
periods; group 1 captures the dotted quad (without the colons). -/

/-- The candidate splits of a greedy `\d{1,3}`, in the order a
backtracking engine tries them: three digits first, then two, then one. -/
def octCands : List Char → List (List Char × List Char)
  | a :: b :: c :: r =>
    if a.isDigit && b.isDigit && c.isDigit then
      [([a, b, c], r), ([a, b], c :: r), ([a], b :: c :: r)]
    else if a.isDigit && b.isDigit then [([a, b], c :: r), ([a], b :: c :: r)]
    else if a.isDigit then [([a], b :: c :: r)]
    else []
  | [a, b] =>
    if a.isDigit && b.isDigit then [([a, b], []), ([a], [b])]
    else if a.isDigit then [([a], [b])]
    else []
  | [a] => if a.isDigit then [([a], [])] else []
  | [] => []

/-- First `some` produced by `f` over a list of candidates, in order —
the backtracking search over the candidates of a greedy group. -/
def firstSome : List α → (α → Option β) → Option β
  | [], _ => none
  | x :: xs, f =>
    match f x with
    | some y => some y
    | none => firstSome xs f

/-- Match `\d{1,3}\.\d{1,3}\.\d{1,3}\.\d{1,3}` at the head of the input
with full backtracking; returns the captured characters. -/
def matchQuad (cs : List Char) : Option (List Char) :=
  firstSome (octCands cs) fun p1 =>
    match p1.2 with
    | c1 :: r1 =>
      if c1 = '.' then
        firstSome (octCands r1) fun p2 =>
          match p2.2 with
          | c2 :: r2 =>
            if c2 = '.' then
              firstSome (octCands r2) fun p3 =>
                match p3.2 with
                | c3 :: r3 =>
                  if c3 = '.' then
                    firstSome (octCands r3) fun p4 =>
                      some (p1.1 ++ c1 :: (p2.1 ++ c2 :: (p3.1 ++ c3 :: p4.1)))
                  else none
                | [] => none
            else none
          | [] => none
      else none
    | [] => none

/-- The candidate remainders of a greedy `:*`, most colons consumed first. -/
def colonCands : List Char → List (List Char)
  | [] => [[]]
  | c :: r => if c = ':' then colonCands r ++ [c :: r] else [c :: r]

/-- Match `:*(\d{1,3}\.\d{1,3}\.\d{1,3}\.\d{1,3})` at the current
position; the capture is group 1 (the quad, colons excluded). -/
def tryIpAt (cs : List Char) : Option (List Char) :=
  firstSome (colonCands cs) matchQuad

/-! ## `pull_artifacts` -/

/-- The username search of `pull_artifacts`
(`m1` in the source; placeholder `"*"` when there is no match). -/
def pull_username (body : String) : String :=
  match scanFirst (tryKeyAt userKeywords) body.data with
  | some cap => String.mk (pyStrip cap)
  | none => "*"

/-- The password search of `pull_artifacts`
(`m2` in the source; placeholder `"*"` when there is no match). -/
def pull_password (body : String) : String :=
  match scanFirst (tryKeyAt pwdKeywords) body.data with
  | some cap => String.mk (pyStrip cap)
  | none => "*"

/-- The IP search of `pull_artifacts`
(`m3` in the source; placeholder `"*"` when there is no match). -/
def pull_ip (body : String) : String :=
  match scanFirst tryIpAt body.data with
  | some cap => String.mk (pyStrip cap)
  | none => "*"

/-- `pull_artifacts(body)`: the `(user, pwd, ip)` triple. -/
def pull_artifacts (body : String) : String × String × String :=
  (pull_username body, pull_password body, pull_ip body)

/-! ## Message records (Python dicts)

A record maps lower-case field names to values.  A value is a string
(`scalar`), a list of strings (`multi`, from `message.get_all` on a
duplicated header) or Python `None` (what `message.get` returns when the
name is absent — unreachable in `parse_header`, which only queries names
it has seen). -/

inductive FieldValue where
  | none
  | scalar (s : String)
  | multi (l : List String)
  deriving DecidableEq, Repr

/-- A Python dict with string keys, as an association list with unique
keys: `dictSet` updates in place or appends. -/
abbrev Dict := List (String × FieldValue)

/-- `d[k] = v` on a Python dict: overwrite the existing entry or append. -/
def dictSet : Dict → String → FieldValue → Dict
  | [], k, v => [(k, v)]
  | (k', v') :: rest, k, v =>
    if k' = k then (k, v) :: rest else (k', v') :: dictSet rest k v

/-- `d.get(k)` on a Python dict. -/
def dictGet : Dict → String → Option FieldValue
  | [], _ => Option.none
  | (k', v') :: rest, k => if k' = k then some v' else dictGet rest k

/-! ## The message object

An email message is its ordered list of `(name, value)` header pairs
plus the payload text. -/

/-- Python `str.lower()`, character by character (ASCII case folding). -/
def strLower (s : String) : String :=
  String.mk (s.data.map Char.toLower)

/-- `message.get(x)` for the lower-case name `x`: the value of the first
header whose name compares case-insensitively equal to `x`. -/
def msgGet (m : List (String × String)) (x : String) : Option String :=
  ((m.filter (fun p => strLower p.1 = x)).head?).map (fun p => p.2)

/-- `message.get_all(x)` for the lower-case name `x`: the values of all
headers whose names compare case-insensitively equal to `x`, in original
source order. -/
def msgGetAll (m : List (String × String)) (x : String) : List String :=
  (m.filter (fun p => strLower p.1 = x)).map (fun p => p.2)

/-- `os.path.basename`: the part of a path after the last `/`. -/
def basename (s : String) : String :=
  String.mk ((s.data.reverse.takeWhile (fun c => c ≠ '/')).reverse)

/-! ## `parse_header` -/

/-- The lower-cased header-name list of a message
(`email_headers` in the source). -/
def emailHeadersOf (m : List (String × String)) : List String :=
  m.map (fun p => strLower p.1)

/-- `parse_header(file)`: builds the record for one message.  `fname` is
the path the file was opened with (`file.name`).  The iteration over the
set `uniq_email_header_fields` is modelled by iterating over the
duplicate-free list of names; since each loop pass assigns a distinct
key, the set's iteration order is immaterial to the resulting dict. -/
def parse_header (m : List (String × String)) (payload : String)
    (fname : String) : Dict :=
  let email_headers := emailHeadersOf m
  let dup_email_header_fields := email_headers.filter
    (fun x => 1 < email_headers.count x)
  let uniq_email_header_fields := email_headers.dedup
  let d0 := dictSet [] "source-email-file"
    (FieldValue.scalar (basename (strLower fname)))
  let d1 := uniq_email_header_fields.foldl (fun d x =>
    dictSet d x (if x ∈ dup_email_header_fields then FieldValue.multi (msgGetAll m x)
      else match msgGet m x with
        | some v => FieldValue.scalar v
        | Option.none => FieldValue.none)) d0
  let d2 := dictSet d1 "body" (FieldValue.scalar payload)
  let arts := pull_artifacts payload
  let d3 := dictSet d2 "username" (FieldValue.scalar arts.1)
  let d4 := dictSet d3 "password" (FieldValue.scalar arts.2.1)
  dictSet d4 "ip" (FieldValue.scalar arts.2.2)

/-! ## `add_email_header_tracker`

The source mutates the process-wide set `email_header_fields`; the
embedding passes the set explicitly and returns its new value. -/

/-- One call to `add_email_header_tracker(header_f)`: insert every name
of `header_f` (given in some iteration order) that is not yet present. -/
def add_email_header_tracker (fields : Finset String) (header_f : List String) :
    Finset String :=
  header_f.foldl (fun s x => if x ∈ s then s else insert x s) fields

/-! ## `load_data` -/

/-- One directory entry as seen by `os.scandir`: its name, whether it is
a regular file, and (for the embedding) the message contents the file
parses to. -/
structure EmlEntry where
  name : String
  isFile : Bool
  headers : List (String × String)
  payload : String
  deriving DecidableEq

/-- `fnmatch.fnmatch(path, '*.eml')`: the pattern compiles to the regex
`(?s:.*\.eml)\Z`, so it holds exactly when the path ends in `.eml`
(`fnmatch` receives the `DirEntry`, whose `__fspath__` is the full
path).  Suffix testing is done on the reversed character list. -/
def listStarts : List Char → List Char → Bool
  | [], _ => true
  | _ :: _, [] => false
  | a :: ps, b :: ls => a = b && listStarts ps ls

/-- `fnmatch.fnmatch(path, '*.eml')`. -/
def fnmatchEml (path : String) : Bool :=
  listStarts ".eml".data.reverse path.data.reverse

/-- The path `os.scandir` reports for an entry: `dir + '/' + name`. -/
def entryPath (dir : String) (e : EmlEntry) : String :=
  dir ++ "/" ++ e.name

/-- `load_data(path)`: parse every regular file matching `*.eml` and
collect the records in directory order. -/
def load_data (dir : String) (entries : List EmlEntry) : List Dict :=
  (entries.filter (fun e => e.isFile && fnmatchEml (entryPath dir e))).map
    (fun e => parse_header e.headers e.payload (entryPath dir e))

/-- The process-wide schema set after `load_data` has run: the fold of
`add_email_header_tracker` over the distinct header-name lists of the
processed files, starting from the empty set. -/
def schemaAfter (dir : String) (entries : List EmlEntry) : Finset String :=
  (entries.filter (fun e => e.isFile && fnmatchEml (entryPath dir e))).foldl
    (fun s e => add_email_header_tracker s (emailHeadersOf e.headers).dedup) ∅

/-! ## `write_data_to_file` -/

/-- The fixed user-defined columns appended after the sorted header names. -/
def fixedCols : List String :=
  ["body", "username", "password", "ip", "source-email-file"]

/-- `csv_columns`: `sorted(email_header_fields)` followed by the fixed
columns.  Python's `sorted` on strings is lexicographic by code point,
which is exactly `≤` on `String`. -/
def csv_columns (schema : Finset String) : List String :=
  schema.sort (· ≤ ·) ++ fixedCols

/-- One `DictWriter.writerow`: align the record to the columns, an
absent key becoming the empty-string rest value. -/
def rowFor (cols : List String) (d : Dict) : List FieldValue :=
  cols.map (fun c => (dictGet d c).getD (FieldValue.scalar ""))

/-- The table `write_data_to_file` produces when no I/O error occurs:
the header row (`writeheader`) and one row per record. -/
def writeTable (schema : Finset String) (data : List Dict) :
    List String × List (List FieldValue) :=
  (csv_columns schema, data.map (rowFor (csv_columns schema)))

/-- `write_data_to_file(data_list, output_file)`: the `try`/`except
IOError` block, with the possibility of an I/O error abstracted into the
`ioOk` input.  Returns the boolean result, the lines printed by the
function, and the table when it was written. -/
def write_data_to_file (schema : Finset String) (data : List Dict)
    (ioOk : Bool) : Bool × List String × Option (List String × List (List FieldValue)) :=
  if ioOk then (true, [], some (writeTable schema data))
  else (false, ["I/O Error!"], Option.none)

/-! ## `main` -/

/-- The argument validation of `main` (lines 19–24): the argument count
must be 3 and `os.path.exists(sys.argv[1])` must hold.  Note that the
check consults only existence — whether the path is a directory is not
an input of the check. -/
def args_validation_passes (argc : Nat) (input_path_exists : Bool) : Bool :=
  if argc ≠ 3 then false
  else if !input_path_exists then false
  else true

/-- The argument validation the specification describes (§6, §7):
`Modelled from the spec:` the input path must exist *and be a
directory*; otherwise a usage error. -/
def spec_args_validation (argc : Nat) (input_path_exists : Bool)
    (input_path_is_directory : Bool) : Bool :=
  if argc ≠ 3 then false
  else if !(input_path_exists && input_path_is_directory) then false
  else true

/-- The lines `main` prints after a successful argument validation:
the processed-file count, then whatever `write_data_to_file` prints,
then the success message only when the write succeeded. -/
def mainOutput (dir : String) (entries : List EmlEntry) (ioOk : Bool) :
    List String :=
  let processed_data := load_data dir entries
  let w := write_data_to_file (schemaAfter dir entries) processed_data ioOk
  ("Processed " ++ toString processed_data.length ++ " files") ::
    (w.2.1 ++ if w.1 then ["CSV file successfully written!"] else [])

/-! ## Declarative pattern predicates

The claims describe the regex searches declaratively; the predicates
below state those descriptions directly, to be related to the
backtracking matchers above. -/

/-- A 1–3 digit group, as the claims describe an octet of the loose IP
pattern (no range validation). -/
def isOctet (l : List Char) : Prop :=
  l ≠ [] ∧ l.length ≤ 3 ∧ ∀ c ∈ l, c.isDigit

/-- Four 1–3-digit groups separated by periods occur in `cs` starting at
position `i`. -/
def quadAt (cs : List Char) (i : Nat) : Prop :=
  ∃ a b c d rest, isOctet a ∧ isOctet b ∧ isOctet c ∧ isOctet d ∧
    cs.drop i = a ++ '.' :: (b ++ '.' :: (c ++ '.' :: (d ++ rest)))

/-- One of the keywords of `kws` occurs case-insensitively in `cs` at
position `i`, followed by optional spaces and a colon. -/
def keyMatchAt (kws : List (List Char)) (cs : List Char) (i : Nat) : Prop :=
  ∃ kw k sp rest, kw ∈ kws ∧ k.map Char.toLower = kw ∧ (∀ c ∈ sp, c = ' ') ∧
    cs.drop i = k ++ (sp ++ ':' :: rest)

/-! ## Lemmas about the generic scan -/

theorem scanFirst_eq_none_iff (f : List Char → Option α) (cs : List Char) :
    scanFirst f cs = Option.none ↔ ∀ i, f (cs.drop i) = Option.none := by
  induction cs with
  | nil =>
    simp only [scanFirst]
    constructor
    · intro h i; simpa using h
    · intro h; simpa using h 0
  | cons c rest ih =>
    simp only [scanFirst]
    cases hf : f (c :: rest) with
    | some r =>
      simp only []
      constructor
      · intro h; cases h
      · intro h; have := h 0; simp [hf] at this
    | none =>
      simp only []
      rw [ih]
      constructor
      · intro h i
        cases i with
        | zero => simpa using hf
        | succ j => simpa using h j
      · intro h j
        simpa using h (j + 1)

theorem scanFirst_eq_some (f : List Char → Option α) (cs : List Char) (a : α)
    (h : scanFirst f cs = some a) :
    ∃ i, f (cs.drop i) = some a ∧ ∀ j, j < i → f (cs.drop j) = Option.none := by
  induction cs with
  | nil =>
    refine ⟨0, by simpa [scanFirst] using h, by omega⟩
  | cons c rest ih =>
    simp only [scanFirst] at h
    cases hf : f (c :: rest) with
    | some r =>
      rw [hf] at h
      have h' : some r = some a := h
      exact ⟨0, by simpa using hf.trans h', by omega⟩
    | none =>
      rw [hf] at h
      obtain ⟨i, hi, hmin⟩ := ih h
      refine ⟨i + 1, by simpa using hi, ?_⟩
      intro j hj
      cases j with
      | zero => simpa using hf
      | succ j' => exact by simpa using hmin j' (by omega)

theorem scanFirst_at (f : List Char → Option α) (cs : List Char) (i : Nat) (a : α)
    (h : f (cs.drop i) = some a) (hmin : ∀ j, j < i → f (cs.drop j) = Option.none) :
    scanFirst f cs = some a := by
  induction i generalizing cs with
  | zero =>
    simp only [List.drop_zero] at h
    cases cs with
    | nil => simpa [scanFirst] using h
    | cons c rest => simp [scanFirst, h]
  | succ i' ih =>
    have h0 : f cs = Option.none := by simpa using hmin 0 (by omega)
    cases cs with
    | nil =>
      rw [List.drop_nil] at h
      rw [h0] at h; cases h
    | cons c rest =>
      simp only [scanFirst, h0]
      exact ih rest (by simpa using h) (fun j hj => by simpa using hmin (j + 1) (by omega))

/-! ## Lemmas about `firstSome` -/

theorem firstSome_eq_some (l : List α) (f : α → Option β) (b : β)
    (h : firstSome l f = some b) : ∃ a ∈ l, f a = some b := by
  induction l with
  | nil => cases h
  | cons x xs ih =>
    simp only [firstSome] at h
    cases hf : f x with
    | some y =>
      rw [hf] at h
      have h' : some y = some b := h
      exact ⟨x, List.mem_cons_self x xs, hf.trans h'⟩
    | none =>
      rw [hf] at h
      obtain ⟨a, ha, hfa⟩ := ih h
      exact ⟨a, List.mem_cons_of_mem x ha, hfa⟩

theorem firstSome_isSome (l : List α) (f : α → Option β) (a : α)
    (ha : a ∈ l) (h : (f a).isSome) : (firstSome l f).isSome := by
  induction l with
  | nil => cases ha
  | cons x xs ih =>
    simp only [firstSome]
    cases hf : f x with
    | some y => simp
    | none =>
      rcases List.mem_cons.1 ha with rfl | ha'
      · rw [hf] at h; cases h
      · exact ih ha'

theorem firstSome_append (l₁ l₂ : List α) (f : α → Option β) :
    firstSome (l₁ ++ l₂) f =
      match firstSome l₁ f with
      | some b => some b
      | Option.none => firstSome l₂ f := by
  induction l₁ with
  | nil => simp [firstSome]
  | cons x xs ih =>
    simp only [List.cons_append, firstSome]
    cases f x with
    | some y => rfl
    | none => exact ih

/-! ## Lemmas about the dict -/

theorem dictGet_dictSet_self (d : Dict) (k : String) (v : FieldValue) :
    dictGet (dictSet d k v) k = some v := by
  induction d with
  | nil => simp [dictSet, dictGet]
  | cons p rest ih =>
    obtain ⟨k', v'⟩ := p
    by_cases h : k' = k <;> simp [dictSet, dictGet, h, ih]

theorem dictGet_dictSet_ne (d : Dict) (k k' : String) (v : FieldValue)
    (h : k' ≠ k) : dictGet (dictSet d k' v) k = dictGet d k := by
  induction d with
  | nil => simp [dictSet, dictGet, h]
  | cons p rest ih =>
    obtain ⟨k'', v''⟩ := p
    by_cases h2 : k'' = k'
    · subst h2; simp [dictSet, dictGet, h, Ne.symm h]
    · by_cases h3 : k'' = k <;> simp [dictSet, dictGet, h2, h3, Ne.symm h, ih]

theorem dictGet_foldl_not_mem (l : List String) (f : String → FieldValue)
    (d : Dict) (x : String) (hx : x ∉ l) :
    dictGet (l.foldl (fun d y => dictSet d y (f y)) d) x = dictGet d x := by
  induction l generalizing d with
  | nil => rfl
  | cons y ys ih =>
    simp only [List.foldl_cons]
    have hy : y ≠ x := fun h => hx (h ▸ List.mem_cons_self y ys)
    rw [ih _ (fun h => hx (List.mem_cons_of_mem y h)), dictGet_dictSet_ne _ _ _ _ hy]

theorem dictGet_foldl_mem (l : List String) (hl : l.Nodup) (f : String → FieldValue)
    (d : Dict) (x : String) (hx : x ∈ l) :
    dictGet (l.foldl (fun d y => dictSet d y (f y)) d) x = some (f x) := by
  induction l generalizing d with
  | nil => cases hx
  | cons y ys ih =>
    simp only [List.foldl_cons]
    rcases List.mem_cons.1 hx with rfl | hx'
    · rw [dictGet_foldl_not_mem _ _ _ _ (List.nodup_cons.1 hl).1,
        dictGet_dictSet_self]
    · exact ih (List.nodup_cons.1 hl).2 _ hx'

/-! ## C2 — argument validation (code bug)

The source's check (`email_header_parser.py` lines 19–24) tests only
`os.path.exists`, never `os.path.isdir`, although its own error message
reads "Argument provided is not a directory."; an existing
non-directory therefore passes validation, while the specification
requires it to be rejected with a usage error. -/

/-- C2: with three arguments and an input path that exists but is *not*
a directory, the code's argument validation passes (the program then
proceeds to `os.scandir`), whereas the validation described by the
specification rejects exactly that input. -/
theorem args_validation_accepts_existing_nondirectory :
    args_validation_passes 3 true = true ∧
    spec_args_validation 3 true false = false :=
  ⟨rfl, rfl⟩

/-! ## C9 — the schema tracker is a monotone, idempotent, order-independent union -/

theorem add_email_header_tracker_eq_union (s : Finset String) (l : List String) :
    add_email_header_tracker s l = s ∪ l.toFinset := by
  induction l generalizing s with
  | nil => simp [add_email_header_tracker]
  | cons x xs ih =>
    simp only [add_email_header_tracker, List.foldl_cons] at *
    rw [ih]
    by_cases h : x ∈ s
    · simp only [h, if_true]
      ext a
      simp only [Finset.mem_union, List.mem_toFinset, List.mem_cons]
      constructor
      · rintro (ha | ha)
        · exact Or.inl ha
        · exact Or.inr (Or.inr ha)
      · rintro (ha | rfl | ha)
        · exact Or.inl ha
        · exact Or.inl h
        · exact Or.inr ha
    · simp only [h, if_false]
      ext a
      simp only [Finset.mem_union, Finset.mem_insert, List.mem_toFinset, List.mem_cons]
      tauto

/-- C9: one call to the schema-tracking step leaves the set equal to the
union of its previous value and the given name collection; the set only
grows, re-adding changes nothing, the result does not depend on the
iteration order of the names, and the final set after a whole batch does
not depend on the order in which the files are processed. -/
theorem header_tracker_spec (s : Finset String) (l l' : List String)
    (h : l.Perm l') :
    add_email_header_tracker s l = s ∪ l.toFinset ∧
    s ⊆ add_email_header_tracker s l ∧
    add_email_header_tracker (add_email_header_tracker s l) l =
      add_email_header_tracker s l ∧
    add_email_header_tracker s l = add_email_header_tracker s l' ∧
    (∀ fss fss' : List (List String), fss.Perm fss' →
      fss.foldl add_email_header_tracker ∅ = fss'.foldl add_email_header_tracker ∅) := by
  refine ⟨add_email_header_tracker_eq_union s l, ?_, ?_, ?_, ?_⟩
  · rw [add_email_header_tracker_eq_union]
    exact Finset.subset_union_left
  · simp [add_email_header_tracker_eq_union, Finset.union_assoc]
  · rw [add_email_header_tracker_eq_union, add_email_header_tracker_eq_union,
      List.toFinset_eq_of_perm l l' h]
  · intro fss fss' hp
    have hfun : add_email_header_tracker =
        fun (s : Finset String) (l : List String) => s ∪ l.toFinset :=
      funext fun s => funext fun l => add_email_header_tracker_eq_union s l
    rw [hfun]
    exact hp.foldl_eq' (fun x _ y _ z => Finset.union_right_comm z x.toFinset y.toFinset) ∅

/-- Witness for C9 at a concrete set and a concrete pair of permuted
name lists. -/
theorem header_tracker_spec_witness :
    (["a", "b"] : List String).Perm ["b", "a"] ∧
    (add_email_header_tracker {"x"} ["a", "b"] =
        {"x"} ∪ (["a", "b"] : List String).toFinset ∧
      ({"x"} : Finset String) ⊆ add_email_header_tracker {"x"} ["a", "b"] ∧
      add_email_header_tracker (add_email_header_tracker {"x"} ["a", "b"]) ["a", "b"] =
        add_email_header_tracker {"x"} ["a", "b"] ∧
      add_email_header_tracker {"x"} ["a", "b"] =
        add_email_header_tracker {"x"} ["b", "a"] ∧
      (∀ fss fss' : List (List String), fss.Perm fss' →
        fss.foldl add_email_header_tracker ∅ = fss'.foldl add_email_header_tracker ∅)) :=
  ⟨by decide, header_tracker_spec {"x"} ["a", "b"] ["b", "a"] (by decide)⟩

/-! ## C6 — output column order -/

/-- C6: the column order of the output is the lexicographically sorted
observed header names followed by exactly
`body, username, password, ip, source-email-file`, and this list is the
table's header row (what `writeheader` emits). -/
theorem write_columns_spec (schema : Finset String) (data : List Dict) :
    csv_columns schema =
      schema.sort (· ≤ ·) ++
        ["body", "username", "password", "ip", "source-email-file"] ∧
    List.Sorted (· ≤ ·) (schema.sort (· ≤ ·)) ∧
    (∀ x, x ∈ schema.sort (· ≤ ·) ↔ x ∈ schema) ∧
    (writeTable schema data).1 = csv_columns schema ∧
    (write_data_to_file schema data true).2.2 = some (writeTable schema data) :=
  ⟨rfl, Finset.sort_sorted _ _, fun _ => Finset.mem_sort _, rfl, rfl⟩

/-- Witness for C6 at a concrete schema. -/
theorem write_columns_spec_witness :
    (csv_columns {"received"} =
        ({"received"} : Finset String).sort (· ≤ ·) ++
          ["body", "username", "password", "ip", "source-email-file"] ∧
      List.Sorted (· ≤ ·) (({"received"} : Finset String).sort (· ≤ ·)) ∧
      (∀ x, x ∈ ({"received"} : Finset String).sort (· ≤ ·) ↔
        x ∈ ({"received"} : Finset String)) ∧
      (writeTable {"received"} []).1 = csv_columns {"received"} ∧
      (write_data_to_file {"received"} [] true).2.2 =
        some (writeTable {"received"} [])) ∧
    csv_columns {"received"} =
      ["received", "body", "username", "password", "ip", "source-email-file"] :=
  ⟨write_columns_spec {"received"} [], by
    simp [csv_columns, fixedCols, Finset.sort_singleton]⟩

/-! ## C8 — write success reporting -/

theorem success_msg_ne_processed (s : String) :
    "CSV file successfully written!" ≠ "Processed " ++ s ++ " files" := by
  intro h
  have h2 : ("CSV file successfully written!".data.head?) =
      (("Processed " ++ s ++ " files").data.head?) := by rw [h]
  have hP : ("Processed " ++ s ++ " files").data =
      'P' :: ("rocessed ".data ++ (s.data ++ " files".data)) := by
    have hlit : "Processed ".data = 'P' :: "rocessed ".data := rfl
    simp [String.data_append, hlit]
  rw [hP] at h2
  have h4 : some 'C' = some 'P' := h2
  simp at h4

/-- C8: `write_data_to_file` returns `True` exactly when no I/O error
occurs; on failure it prints `I/O Error!` and returns `False`, so the
success message never appears in `main`'s output, while the
processed-file count is the first line printed either way. -/
theorem write_result_spec (schema : Finset String) (data : List Dict)
    (ioOk : Bool) (dir : String) (entries : List EmlEntry) :
    ((write_data_to_file schema data ioOk).1 = true ↔ ioOk = true) ∧
    (write_data_to_file schema data false).2.1 = ["I/O Error!"] ∧
    "CSV file successfully written!" ∉ mainOutput dir entries false ∧
    mainOutput dir entries false =
      ["Processed " ++ toString (load_data dir entries).length ++ " files",
        "I/O Error!"] ∧
    (mainOutput dir entries ioOk).head? =
      some ("Processed " ++ toString (load_data dir entries).length ++ " files") := by
  refine ⟨?_, rfl, ?_, ?_, ?_⟩
  · cases ioOk <;> simp [write_data_to_file]
  · intro hmem
    simp only [mainOutput, write_data_to_file, if_neg (by simp : ¬(False = True)),
      Bool.false_eq_true, if_false, List.mem_cons, List.mem_append] at hmem
    rcases hmem with h | h
    · exact success_msg_ne_processed _ h
    · simp at h
  · rfl
  · cases ioOk <;> rfl

/-- Witness for C8 at concrete inputs. -/
theorem write_result_spec_witness :
    (((write_data_to_file ∅ [] true).1 = true ↔ true = true) ∧
      (write_data_to_file ∅ [] false).2.1 = ["I/O Error!"] ∧
      "CSV file successfully written!" ∉ mainOutput "d" [] false ∧
      mainOutput "d" [] false =
        ["Processed " ++ toString (load_data "d" []).length ++ " files",
          "I/O Error!"] ∧
      (mainOutput "d" [] true).head? =
        some ("Processed " ++ toString (load_data "d" []).length ++ " files")) ∧
    mainOutput "d" [] true =
      ["Processed 0 files", "CSV file successfully written!"] :=
  ⟨write_result_spec ∅ [] true "d" [], by decide⟩

/-! ## C10 — reserved header names collide with the fixed columns -/

/-- C10: a message carrying a header literally named `Body` has that
header's parsed value overwritten by the payload in the record, and the
lower-cased name `body` also enters the schema set, so the column name
`body` appears twice in the output header row. -/
theorem reserved_header_collision :
    dictGet (parse_header [("Body", "original header text")] "payload text"
      "a.eml") "body" = some (FieldValue.scalar "payload text") ∧
    dictGet (parse_header [("Body", "original header text")] "payload text"
      "a.eml") "body" ≠ some (FieldValue.scalar "original header text") ∧
    "body" ∈ add_email_header_tracker ∅
      (emailHeadersOf [("Body", "original header text")]).dedup ∧
    (csv_columns (add_email_header_tracker ∅
      (emailHeadersOf [("Body", "original header text")]).dedup)).count "body" = 2 := by
  have hset : add_email_header_tracker ∅
      (emailHeadersOf [("Body", "original header text")]).dedup = {"body"} := by
    decide
  refine ⟨by decide, by decide, ?_, ?_⟩
  · rw [hset]; decide
  · rw [hset]
    simp only [csv_columns, fixedCols, Finset.sort_singleton]
    decide

/-! ## C1 — scalar/sequence shape of parsed headers -/

theorem count_emailHeaders (m : List (String × String)) (x : String) :
    (emailHeadersOf m).count x = (m.filter (fun p => strLower p.1 = x)).length := by
  induction m with
  | nil => rfl
  | cons p ps ih =>
    simp only [emailHeadersOf, List.map_cons, List.filter_cons] at ih ⊢
    by_cases h : strLower p.1 = x <;>
      simp [List.count_cons, h, ih]

/-- What `parse_header` stores under a non-reserved name that occurs in
the message: the value chosen by the duplicate check. -/
theorem parse_header_get (m : List (String × String)) (payload fname : String)
    (x : String) (hx : x ∈ emailHeadersOf m)
    (hb : x ≠ "body") (hu : x ≠ "username") (hp : x ≠ "password")
    (hi : x ≠ "ip") :
    dictGet (parse_header m payload fname) x =
      some (if 1 < (emailHeadersOf m).count x
        then FieldValue.multi (msgGetAll m x)
        else match msgGet m x with
          | some v => FieldValue.scalar v
          | Option.none => FieldValue.none) := by
  simp only [parse_header]
  rw [dictGet_dictSet_ne _ _ _ _ (Ne.symm hi),
    dictGet_dictSet_ne _ _ _ _ (Ne.symm hp),
    dictGet_dictSet_ne _ _ _ _ (Ne.symm hu),
    dictGet_dictSet_ne _ _ _ _ (Ne.symm hb),
    dictGet_foldl_mem _ (List.nodup_dedup _) _ _ _ (List.mem_dedup.2 hx)]
  by_cases h : 1 < (emailHeadersOf m).count x
  · rw [if_pos h, if_pos (List.mem_filter.2 ⟨hx, by simpa using h⟩)]
  · rw [if_neg h, if_neg (fun hmem => h (by simpa using (List.mem_filter.1 hmem).2))]

/-- C1 (amended): for every parsed message, `parse_header` maps each
distinct lower-cased header name **other than the reserved keys `body`,
`username`, `password` and `ip`** to a scalar string — the value of its
single occurrence — when that name occurred exactly once, and to the
sequence of all its values in original source order, with no occurrence
dropped, when it occurred more than once.  (Headers carrying one of the
four reserved names are overwritten afterwards by the payload and the
extracted artifacts; see the counterexample and C10.) -/
theorem parse_header_shape (m : List (String × String)) (payload fname : String)
    (x : String) (hx : x ∈ emailHeadersOf m)
    (hb : x ≠ "body") (hu : x ≠ "username") (hp : x ≠ "password")
    (hi : x ≠ "ip") :
    ((emailHeadersOf m).count x = 1 →
      ∃ v, dictGet (parse_header m payload fname) x =
          some (FieldValue.scalar v) ∧
        msgGetAll m x = [v]) ∧
    (1 < (emailHeadersOf m).count x →
      dictGet (parse_header m payload fname) x =
        some (FieldValue.multi (msgGetAll m x)) ∧
      (msgGetAll m x).length = (emailHeadersOf m).count x) := by
  constructor
  · intro h1
    have hflen : (m.filter (fun p => strLower p.1 = x)).length = 1 := by
      rw [← count_emailHeaders]; exact h1
    obtain ⟨a, ha⟩ := List.length_eq_one.1 hflen
    refine ⟨a.2, ?_, ?_⟩
    · rw [parse_header_get m payload fname x hx hb hu hp hi,
        if_neg (by omega : ¬ 1 < (emailHeadersOf m).count x)]
      have hget : msgGet m x = some a.2 := by rw [msgGet, ha]; rfl
      rw [hget]
    · rw [msgGetAll, ha]; rfl
  · intro h2
    refine ⟨?_, ?_⟩
    · rw [parse_header_get m payload fname x hx hb hu hp hi, if_pos h2]
    · rw [msgGetAll, List.length_map, ← count_emailHeaders]

/-- Counterexample to C1 as stated: the header name `body` occurred
exactly once in the source message with value `orig`, yet the record
does not map it to that scalar value — the occurrence is overwritten by
the payload. -/
theorem parse_header_shape_cex :
    (emailHeadersOf [("Body", "orig")]).count "body" = 1 ∧
    dictGet (parse_header [("Body", "orig")] "PAYLOAD" "m.eml") "body" ≠
      some (FieldValue.scalar "orig") ∧
    dictGet (parse_header [("Body", "orig")] "PAYLOAD" "m.eml") "body" =
      some (FieldValue.scalar "PAYLOAD") :=
  ⟨by decide, by decide, by decide⟩

/-- Witness for the amended C1 on a message with a duplicated
`Received` header. -/
theorem parse_header_shape_witness :
    ("received" ∈
        emailHeadersOf [("Received", "r1"), ("Subject", "s"), ("Received", "r2")] ∧
      1 < (emailHeadersOf
        [("Received", "r1"), ("Subject", "s"), ("Received", "r2")]).count "received") ∧
    (dictGet (parse_header [("Received", "r1"), ("Subject", "s"), ("Received", "r2")]
          "hello" "m.eml") "received" =
        some (FieldValue.multi (msgGetAll
          [("Received", "r1"), ("Subject", "s"), ("Received", "r2")] "received")) ∧
      (msgGetAll [("Received", "r1"), ("Subject", "s"), ("Received", "r2")]
          "received").length =
        (emailHeadersOf
          [("Received", "r1"), ("Subject", "s"), ("Received", "r2")]).count "received") ∧
    msgGetAll [("Received", "r1"), ("Subject", "s"), ("Received", "r2")] "received" =
      ["r1", "r2"] :=
  ⟨⟨by decide, by decide⟩,
    (parse_header_shape [("Received", "r1"), ("Subject", "s"), ("Received", "r2")]
      "hello" "m.eml" "received" (by decide) (by decide) (by decide) (by decide)
      (by decide)).2 (by decide),
    by decide⟩

/-! ## C7 — record count equals matching-file count -/

theorem listStarts_append_cons (p : List Char) (c : Char)
    (hc : ∀ x ∈ p, x ≠ c) :
    ∀ n d, listStarts p (n ++ c :: d) = listStarts p n := by
  induction p with
  | nil => intro n d; rfl
  | cons a ps ih =>
    intro n d
    cases n with
    | nil =>
      have ha : a ≠ c := hc a (List.mem_cons_self a ps)
      simp [listStarts, ha]
    | cons b ns =>
      simp only [List.cons_append, listStarts, List.append_eq]
      rw [ih (fun x hx => hc x (List.mem_cons_of_mem a hx)) ns d]

/-- The `*.eml` match on the full path reported by `os.scandir` holds
exactly when it holds on the entry's bare name: the pattern's suffix
`.eml` cannot straddle the path separator. -/
theorem fnmatchEml_entryPath (dir : String) (e : EmlEntry) :
    fnmatchEml (entryPath dir e) = fnmatchEml e.name := by
  simp only [fnmatchEml, entryPath, String.data_append, List.reverse_append]
  rw [show ("/".data.reverse) = ['/'] from rfl]
  rw [List.singleton_append]
  exact listStarts_append_cons _ '/' (by decide) _ _

/-- C7: `load_data` produces exactly one record per regular file whose
name matches `*.eml`, regardless of the files' header content; with zero
matching files it produces no record, the schema set stays empty, and
the tool reports zero processed and still writes a header-only table
successfully. -/
theorem load_data_count (dir : String) (entries : List EmlEntry) :
    (load_data dir entries).length =
      (entries.filter (fun e => e.isFile && fnmatchEml e.name)).length ∧
    (entries.filter (fun e => e.isFile && fnmatchEml e.name) = [] →
      load_data dir entries = [] ∧
      schemaAfter dir entries = ∅ ∧
      mainOutput dir entries true =
        ["Processed 0 files", "CSV file successfully written!"] ∧
      (write_data_to_file (schemaAfter dir entries) (load_data dir entries)
        true).1 = true ∧
      (write_data_to_file (schemaAfter dir entries) (load_data dir entries)
        true).2.2 = some (csv_columns ∅, [])) := by
  have hfilter : entries.filter (fun e => e.isFile && fnmatchEml (entryPath dir e)) =
      entries.filter (fun e => e.isFile && fnmatchEml e.name) :=
    List.filter_congr (fun e _ => by rw [fnmatchEml_entryPath])
  constructor
  · rw [load_data, List.length_map, hfilter]
  · intro hzero
    have hload : load_data dir entries = [] := by
      rw [load_data, hfilter, hzero]; rfl
    have hschema : schemaAfter dir entries = ∅ := by
      rw [schemaAfter, hfilter, hzero]; rfl
    refine ⟨hload, hschema, ?_, ?_, ?_⟩
    · rw [mainOutput]
      simp only [hload, hschema, write_data_to_file, if_pos rfl]
      rfl
    · rw [hload, hschema]; rfl
    · rw [hload, hschema]; rfl

/-- Witness for C7 on a directory with no matching entries (a `.txt`
file and a directory whose name ends in `.eml`). -/
theorem load_data_count_witness :
    (List.filter (fun e => e.isFile && fnmatchEml e.name)
        [EmlEntry.mk "notes.txt" true [] "", EmlEntry.mk "sub.eml" false [] ""]
      = []) ∧
    (load_data "box"
        [EmlEntry.mk "notes.txt" true [] "", EmlEntry.mk "sub.eml" false [] ""] = [] ∧
      schemaAfter "box"
        [EmlEntry.mk "notes.txt" true [] "", EmlEntry.mk "sub.eml" false [] ""] = ∅ ∧
      mainOutput "box"
          [EmlEntry.mk "notes.txt" true [] "", EmlEntry.mk "sub.eml" false [] ""] true =
        ["Processed 0 files", "CSV file successfully written!"] ∧
      (write_data_to_file
        (schemaAfter "box"
          [EmlEntry.mk "notes.txt" true [] "", EmlEntry.mk "sub.eml" false [] ""])
        (load_data "box"
          [EmlEntry.mk "notes.txt" true [] "", EmlEntry.mk "sub.eml" false [] ""])
        true).1 = true ∧
      (write_data_to_file
        (schemaAfter "box"
          [EmlEntry.mk "notes.txt" true [] "", EmlEntry.mk "sub.eml" false [] ""])
        (load_data "box"
          [EmlEntry.mk "notes.txt" true [] "", EmlEntry.mk "sub.eml" false [] ""])
        true).2.2 = some (csv_columns ∅, [])) :=
  ⟨by decide,
    (load_data_count "box"
      [EmlEntry.mk "notes.txt" true [] "", EmlEntry.mk "sub.eml" false [] ""]).2
      (by decide)⟩

/-! ## C4/C5 — the keyword searches -/

theorem matchCI_eq_some (p : List Char) :
    ∀ cs r, matchCI p cs = some r →
      ∃ k, cs = k ++ r ∧ k.map Char.toLower = p := by
  induction p with
  | nil =>
    intro cs r h
    have hr : cs = r := Option.some.inj h
    exact ⟨[], by simp [hr], rfl⟩
  | cons a ps ih =>
    intro cs r h
    cases cs with
    | nil => cases h
    | cons c cs' =>
      simp only [matchCI] at h
      by_cases hc : c.toLower = a
      · rw [if_pos hc] at h
        obtain ⟨k, hk, hmap⟩ := ih cs' r h
        exact ⟨c :: k, by simp [hk], by simp [hmap, hc]⟩
      · rw [if_neg hc] at h; cases h

theorem matchCI_append (p k r : List Char)
    (hmap : k.map Char.toLower = p) : matchCI p (k ++ r) = some r := by
  induction k generalizing p with
  | nil => subst hmap; rfl
  | cons c k' ih =>
    subst hmap
    simp only [List.map_cons, List.cons_append, matchCI, if_pos rfl]
    exact ih _ rfl

theorem dropWhile_spaces_append (r : List Char) :
    ∀ sp, (∀ c ∈ sp, c = ' ') →
      (sp ++ ':' :: r).dropWhile (fun c => c = ' ') = ':' :: r := by
  intro sp
  induction sp with
  | nil => intro _; simp [List.dropWhile]
  | cons c sp' ih =>
    intro hsp
    have hc : c = ' ' := hsp c (List.mem_cons_self c sp')
    simp only [List.cons_append, List.dropWhile, hc]
    simpa using ih (fun x hx => hsp x (List.mem_cons_of_mem c hx))

theorem spacesColon_eq_some (cs r : List Char) (h : spacesColon cs = some r) :
    ∃ sp, (∀ c ∈ sp, c = ' ') ∧ cs = sp ++ ':' :: r := by
  rw [spacesColon] at h
  cases hd : cs.dropWhile (fun c => c = ' ') with
  | nil => rw [hd] at h; cases h
  | cons c' rest =>
    rw [hd] at h
    dsimp only at h
    by_cases hc : c' = ':'
    · rw [if_pos hc] at h
      have hr : rest = r := Option.some.inj h
      subst hc; subst hr
      refine ⟨cs.takeWhile (fun c => c = ' '),
        fun c hc2 => by simpa using List.mem_takeWhile_imp hc2, ?_⟩
      conv_lhs => rw [← List.takeWhile_append_dropWhile
        (p := fun c => decide (c = ' ')) (l := cs)]
      rw [hd]
    · rw [if_neg hc] at h; cases h

theorem spacesColon_append (sp r : List Char) (hsp : ∀ c ∈ sp, c = ' ') :
    spacesColon (sp ++ ':' :: r) = some r := by
  rw [spacesColon, dropWhile_spaces_append r sp hsp]
  simp

theorem tryKeyAt_eq_some (kws : List (List Char)) (cs cap : List Char)
    (h : tryKeyAt kws cs = some cap) :
    ∃ kw k sp rest, kw ∈ kws ∧ k.map Char.toLower = kw ∧ (∀ c ∈ sp, c = ' ') ∧
      cs = k ++ (sp ++ ':' :: rest) ∧ cap = restOfLine rest := by
  induction kws with
  | nil => cases h
  | cons kw0 ks ih =>
    simp only [tryKeyAt] at h
    cases hm : matchCI kw0 cs with
    | none =>
      rw [hm] at h
      obtain ⟨kw, k, sp, rest, hmem, hk, hsp, hcs, hcap⟩ := ih h
      exact ⟨kw, k, sp, rest, List.mem_cons_of_mem _ hmem, hk, hsp, hcs, hcap⟩
    | some r =>
      rw [hm] at h
      dsimp only at h
      cases hs : spacesColon r with
      | none =>
        rw [hs] at h
        obtain ⟨kw, k, sp, rest, hmem, hk, hsp, hcs, hcap⟩ := ih h
        exact ⟨kw, k, sp, rest, List.mem_cons_of_mem _ hmem, hk, hsp, hcs, hcap⟩
      | some r2 =>
        rw [hs] at h
        have hcap : restOfLine r2 = cap := Option.some.inj h
        obtain ⟨k, hcs, hk⟩ := matchCI_eq_some kw0 cs r hm
        obtain ⟨sp, hsp, hr⟩ := spacesColon_eq_some r r2 hs
        exact ⟨kw0, k, sp, r2, List.mem_cons_self _ _, hk, hsp,
          by rw [hcs, hr], hcap.symm⟩

theorem tryKeyAt_isSome (kws : List (List Char)) (kw k sp rest : List Char)
    (hmem : kw ∈ kws) (hk : k.map Char.toLower = kw) (hsp : ∀ c ∈ sp, c = ' ') :
    (tryKeyAt kws (k ++ (sp ++ ':' :: rest))).isSome := by
  induction kws with
  | nil => cases hmem
  | cons kw0 ks ih =>
    simp only [tryKeyAt]
    rcases List.mem_cons.1 hmem with rfl | hmem'
    · rw [matchCI_append kw k _ hk]
      dsimp only
      rw [spacesColon_append sp rest hsp]
      rfl
    · cases hm : matchCI kw0 (k ++ (sp ++ ':' :: rest)) with
      | none => dsimp only; exact ih hmem'
      | some r =>
        dsimp only
        cases hs : spacesColon r with
        | none => dsimp only; exact ih hmem'
        | some r2 => dsimp only; rfl

/-- Where the scan ends up when no keyword-with-colon occurs anywhere. -/
theorem scanKey_none (kws : List (List Char)) (cs : List Char)
    (hno : ∀ i, ¬ keyMatchAt kws cs i) :
    scanFirst (tryKeyAt kws) cs = Option.none := by
  rw [scanFirst_eq_none_iff]
  intro i
  cases hc : tryKeyAt kws (cs.drop i) with
  | none => rfl
  | some cap =>
    obtain ⟨kw, k, sp, rest, hmem, hk, hsp, hcs, _⟩ := tryKeyAt_eq_some _ _ _ hc
    exact absurd ⟨kw, k, sp, rest, hmem, hk, hsp, hcs⟩ (hno i)

/-- Where the scan ends up at the first position admitting a
keyword-with-colon match. -/
theorem scanKey_first (kws : List (List Char)) (cs : List Char) (i : Nat)
    (hi : keyMatchAt kws cs i) (hmin : ∀ j, j < i → ¬ keyMatchAt kws cs j) :
    ∃ kw k sp rest, kw ∈ kws ∧ k.map Char.toLower = kw ∧ (∀ c ∈ sp, c = ' ') ∧
      cs.drop i = k ++ (sp ++ ':' :: rest) ∧
      scanFirst (tryKeyAt kws) cs = some (restOfLine rest) := by
  obtain ⟨kw, k, sp, rest, hmem, hk, hsp, hcs⟩ := hi
  have hsome : (tryKeyAt kws (cs.drop i)).isSome := by
    rw [hcs]; exact tryKeyAt_isSome kws kw k sp rest hmem hk hsp
  obtain ⟨cap, hcap⟩ := Option.isSome_iff_exists.1 hsome
  have hnone : ∀ j, j < i → tryKeyAt kws (cs.drop j) = Option.none := by
    intro j hj
    cases hc : tryKeyAt kws (cs.drop j) with
    | none => rfl
    | some c2 =>
      obtain ⟨kw', k', sp', rest', hmem', hk', hsp', hcs', _⟩ :=
        tryKeyAt_eq_some _ _ _ hc
      exact absurd ⟨kw', k', sp', rest', hmem', hk', hsp', hcs'⟩ (hmin j hj)
  have hscan := scanFirst_at (tryKeyAt kws) cs i cap hcap hnone
  obtain ⟨kw2, k2, sp2, rest2, hmem2, hk2, hsp2, hcs2, hcap2⟩ :=
    tryKeyAt_eq_some _ _ _ hcap
  exact ⟨kw2, k2, sp2, rest2, hmem2, hk2, hsp2, hcs2, by rw [hscan, hcap2]⟩

/-- C4: the username artifact is the rest of the line after the first
case-insensitive occurrence of `username` or `email` followed by
optional spaces and a colon, trimmed of surrounding whitespace; when no
position of the body admits such a match the placeholder `*` is
returned. -/
theorem pull_username_spec (body : String) :
    ((∀ i, ¬ keyMatchAt userKeywords body.data i) → pull_username body = "*") ∧
    (∀ i, keyMatchAt userKeywords body.data i →
      (∀ j, j < i → ¬ keyMatchAt userKeywords body.data j) →
      ∃ kw k sp rest, kw ∈ userKeywords ∧ k.map Char.toLower = kw ∧
        (∀ c ∈ sp, c = ' ') ∧ body.data.drop i = k ++ (sp ++ ':' :: rest) ∧
        pull_username body = String.mk (pyStrip (restOfLine rest))) := by
  constructor
  · intro hno
    simp only [pull_username, scanKey_none userKeywords body.data hno]
  · intro i hi hmin
    obtain ⟨kw, k, sp, rest, hmem, hk, hsp, hcs, hscan⟩ :=
      scanKey_first userKeywords body.data i hi hmin
    exact ⟨kw, k, sp, rest, hmem, hk, hsp, hcs,
      by simp only [pull_username, hscan]⟩

/-- C5: the password artifact is the rest of the line after the first
position at which one of the keywords `email password`, `password`,
`pass`, `pd`, `ps` (tried in this order at each position) matches
case-insensitively followed by optional spaces and a colon, trimmed;
when no position admits a match the placeholder `*` is returned. -/
theorem pull_password_spec (body : String) :
    ((∀ i, ¬ keyMatchAt pwdKeywords body.data i) → pull_password body = "*") ∧
    (∀ i, keyMatchAt pwdKeywords body.data i →
      (∀ j, j < i → ¬ keyMatchAt pwdKeywords body.data j) →
      ∃ kw k sp rest, kw ∈ pwdKeywords ∧ k.map Char.toLower = kw ∧
        (∀ c ∈ sp, c = ' ') ∧ body.data.drop i = k ++ (sp ++ ':' :: rest) ∧
        pull_password body = String.mk (pyStrip (restOfLine rest))) := by
  constructor
  · intro hno
    simp only [pull_password, scanKey_none pwdKeywords body.data hno]
  · intro i hi hmin
    obtain ⟨kw, k, sp, rest, hmem, hk, hsp, hcs, hscan⟩ :=
      scanKey_first pwdKeywords body.data i hi hmin
    exact ⟨kw, k, sp, rest, hmem, hk, hsp, hcs,
      by simp only [pull_password, hscan]⟩

/-- Witness for C4 on `Username: alice@example.com`. -/
theorem pull_username_spec_witness :
    (keyMatchAt userKeywords "Username: alice@example.com".data 0 ∧
      pull_username "Username: alice@example.com" = "alice@example.com") ∧
    (∃ kw k sp rest, kw ∈ userKeywords ∧ k.map Char.toLower = kw ∧
      (∀ c ∈ sp, c = ' ') ∧
      "Username: alice@example.com".data.drop 0 = k ++ (sp ++ ':' :: rest) ∧
      pull_username "Username: alice@example.com" =
        String.mk (pyStrip (restOfLine rest))) :=
  ⟨⟨⟨"username".data, "Username".data, [], " alice@example.com".data,
      by decide, by decide, by simp, by decide⟩, by decide⟩,
    (pull_username_spec "Username: alice@example.com").2 0
      ⟨"username".data, "Username".data, [], " alice@example.com".data,
        by decide, by decide, by simp, by decide⟩
      (fun j hj => absurd hj (Nat.not_lt_zero j))⟩

/-- Witness for C5 on `Password: hunter2`. -/
theorem pull_password_spec_witness :
    (keyMatchAt pwdKeywords "Password: hunter2".data 0 ∧
      pull_password "Password: hunter2" = "hunter2") ∧
    (∃ kw k sp rest, kw ∈ pwdKeywords ∧ k.map Char.toLower = kw ∧
      (∀ c ∈ sp, c = ' ') ∧
      "Password: hunter2".data.drop 0 = k ++ (sp ++ ':' :: rest) ∧
      pull_password "Password: hunter2" =
        String.mk (pyStrip (restOfLine rest))) :=
  ⟨⟨⟨"password".data, "Password".data, [], " hunter2".data,
      by decide, by decide, by simp, by decide⟩, by decide⟩,
    (pull_password_spec "Password: hunter2").2 0
      ⟨"password".data, "Password".data, [], " hunter2".data,
        by decide, by decide, by simp, by decide⟩
      (fun j hj => absurd hj (Nat.not_lt_zero j))⟩

/-! ## C3 — the IP search -/

theorem octCands_sound (cs : List Char) (p : List Char × List Char)
    (h : p ∈ octCands cs) : cs = p.1 ++ p.2 ∧ isOctet p.1 := by
  obtain ⟨o, r⟩ := p
  unfold isOctet
  dsimp only
  rcases cs with _ | ⟨a, _ | ⟨b, _ | ⟨c, r'⟩⟩⟩
  · simp [octCands] at h
  · by_cases ha : a.isDigit
    · simp [octCands, ha] at h
      obtain ⟨rfl, rfl⟩ := h
      exact ⟨rfl, by simp, by simp, by simpa using ha⟩
    · simp [octCands, ha] at h
  · by_cases ha : a.isDigit <;> by_cases hb : b.isDigit
    · simp [octCands, ha, hb] at h
      rcases h with ⟨rfl, rfl⟩ | ⟨rfl, rfl⟩
      · exact ⟨rfl, by simp, by simp, by simp [ha, hb]⟩
      · exact ⟨rfl, by simp, by simp, by simp [ha]⟩
    · simp [octCands, ha, hb] at h
      obtain ⟨rfl, rfl⟩ := h
      exact ⟨rfl, by simp, by simp, by simp [ha]⟩
    · simp [octCands, ha, hb] at h
    · simp [octCands, ha, hb] at h
  · by_cases ha : a.isDigit <;> by_cases hb : b.isDigit <;> by_cases hc : c.isDigit
    · simp [octCands, ha, hb, hc] at h
      rcases h with ⟨rfl, rfl⟩ | ⟨rfl, rfl⟩ | ⟨rfl, rfl⟩
      · exact ⟨rfl, by simp, by simp, by simp [ha, hb, hc]⟩
      · exact ⟨rfl, by simp, by simp, by simp [ha, hb]⟩
      · exact ⟨rfl, by simp, by simp, by simp [ha]⟩
    · simp [octCands, ha, hb, hc] at h
      rcases h with ⟨rfl, rfl⟩ | ⟨rfl, rfl⟩
      · exact ⟨rfl, by simp, by simp, by simp [ha, hb]⟩
      · exact ⟨rfl, by simp, by simp, by simp [ha]⟩
    · simp [octCands, ha, hb, hc] at h
      obtain ⟨rfl, rfl⟩ := h
      exact ⟨rfl, by simp, by simp, by simp [ha]⟩
    · simp [octCands, ha, hb, hc] at h
      obtain ⟨rfl, rfl⟩ := h
      exact ⟨rfl, by simp, by simp, by simp [ha]⟩
    · simp [octCands, ha, hb, hc] at h
    · simp [octCands, ha, hb, hc] at h
    · simp [octCands, ha, hb, hc] at h
    · simp [octCands, ha, hb, hc] at h

theorem octCands_complete (o r : List Char) (ho : isOctet o) :
    (o, r) ∈ octCands (o ++ r) := by
  obtain ⟨hne, hlen, hdig⟩ := ho
  rcases o with _ | ⟨a, _ | ⟨b, _ | ⟨c, _ | ⟨d, o'⟩⟩⟩⟩
  · exact absurd rfl hne
  · have ha : a.isDigit := hdig a (by simp)
    rcases r with _ | ⟨x, _ | ⟨y, r'⟩⟩
    · simp [octCands, ha]
    · by_cases hx : x.isDigit <;> simp [octCands, ha, hx]
    · by_cases hx : x.isDigit <;> by_cases hy : y.isDigit <;>
        simp [octCands, ha, hx, hy]
  · have ha : a.isDigit := hdig a (by simp)
    have hb : b.isDigit := hdig b (by simp)
    rcases r with _ | ⟨x, r'⟩
    · simp [octCands, ha, hb]
    · by_cases hx : x.isDigit <;> simp [octCands, ha, hb, hx]
  · have ha : a.isDigit := hdig a (by simp)
    have hb : b.isDigit := hdig b (by simp)
    have hc : c.isDigit := hdig c (by simp)
    simp [octCands, ha, hb, hc]
  · simp at hlen

theorem octCands_nil_of_head (c : Char) (r : List Char) (hc : c.isDigit = false) :
    octCands (c :: r) = [] := by
  rcases r with _ | ⟨b, _ | ⟨x, r'⟩⟩ <;> simp [octCands, hc]

theorem matchQuad_none_cons (c : Char) (r : List Char) (hc : c.isDigit = false) :
    matchQuad (c :: r) = Option.none := by
  rw [matchQuad, octCands_nil_of_head c r hc]
  rfl

theorem matchQuad_eq_some (cs q : List Char) (h : matchQuad cs = some q) :
    ∃ a b c d rest, isOctet a ∧ isOctet b ∧ isOctet c ∧ isOctet d ∧
      cs = a ++ '.' :: (b ++ '.' :: (c ++ '.' :: (d ++ rest))) ∧
      q = a ++ '.' :: (b ++ '.' :: (c ++ '.' :: d)) := by
  rw [matchQuad] at h
  obtain ⟨p1, hp1, h1⟩ := firstSome_eq_some _ _ _ h
  obtain ⟨hcs1, hoct1⟩ := octCands_sound cs p1 hp1
  try dsimp only at h1
  rcases hs1 : p1.2 with _ | ⟨c1, r1⟩
  · rw [hs1] at h1; cases h1
  rw [hs1] at h1
  try dsimp only at h1
  by_cases hc1 : c1 = '.'
  swap
  · rw [if_neg hc1] at h1; cases h1
  rw [if_pos hc1] at h1
  subst hc1
  obtain ⟨p2, hp2, h2⟩ := firstSome_eq_some _ _ _ h1
  obtain ⟨hcs2, hoct2⟩ := octCands_sound r1 p2 hp2
  try dsimp only at h2
  rcases hs2 : p2.2 with _ | ⟨c2, r2⟩
  · rw [hs2] at h2; cases h2
  rw [hs2] at h2
  try dsimp only at h2
  by_cases hc2 : c2 = '.'
  swap
  · rw [if_neg hc2] at h2; cases h2
  rw [if_pos hc2] at h2
  subst hc2
  obtain ⟨p3, hp3, h3⟩ := firstSome_eq_some _ _ _ h2
  obtain ⟨hcs3, hoct3⟩ := octCands_sound r2 p3 hp3
  try dsimp only at h3
  rcases hs3 : p3.2 with _ | ⟨c3, r3⟩
  · rw [hs3] at h3; cases h3
  rw [hs3] at h3
  try dsimp only at h3
  by_cases hc3 : c3 = '.'
  swap
  · rw [if_neg hc3] at h3; cases h3
  rw [if_pos hc3] at h3
  subst hc3
  obtain ⟨p4, hp4, h4⟩ := firstSome_eq_some _ _ _ h3
  obtain ⟨hcs4, hoct4⟩ := octCands_sound r3 p4 hp4
  try dsimp only at h4
  have hq : p1.1 ++ '.' :: (p2.1 ++ '.' :: (p3.1 ++ '.' :: p4.1)) = q :=
    Option.some.inj h4
  refine ⟨p1.1, p2.1, p3.1, p4.1, p4.2, hoct1, hoct2, hoct3, hoct4, ?_, hq.symm⟩
  rw [hcs1, hs1, hcs2, hs2, hcs3, hs3, hcs4]

theorem matchQuad_isSome (a b c d rest : List Char)
    (ha : isOctet a) (hb : isOctet b) (hc : isOctet c) (hd : isOctet d) :
    (matchQuad (a ++ '.' :: (b ++ '.' :: (c ++ '.' :: (d ++ rest))))).isSome := by
  rw [matchQuad]
  apply firstSome_isSome _ _ (a, '.' :: (b ++ '.' :: (c ++ '.' :: (d ++ rest))))
    (octCands_complete a _ ha)
  dsimp only
  rw [if_pos rfl]
  apply firstSome_isSome _ _ (b, '.' :: (c ++ '.' :: (d ++ rest)))
    (octCands_complete b _ hb)
  dsimp only
  rw [if_pos rfl]
  apply firstSome_isSome _ _ (c, '.' :: (d ++ rest)) (octCands_complete c _ hc)
  dsimp only
  rw [if_pos rfl]
  apply firstSome_isSome _ _ (d, rest) (octCands_complete d _ hd)
  rfl

theorem tryIpAt_eq_dropColons (cs : List Char) :
    tryIpAt cs = matchQuad (cs.dropWhile (fun c => c = ':')) := by
  induction cs with
  | nil => rfl
  | cons c r ih =>
    by_cases hc : c = ':'
    · subst hc
      have h1 : tryIpAt (':' :: r) = tryIpAt r := by
        rw [tryIpAt, colonCands, if_pos rfl, firstSome_append]
        rw [show firstSome [':' :: r] matchQuad = Option.none by
          simp only [firstSome, matchQuad_none_cons ':' r (by decide)]]
        cases h2 : firstSome (colonCands r) matchQuad with
        | none => rw [tryIpAt, h2]
        | some q => rw [tryIpAt, h2]
      rw [h1, ih, List.dropWhile_cons_of_pos (by simp)]
    · rw [tryIpAt, colonCands, if_neg hc,
        List.dropWhile_cons_of_neg (by simpa using hc)]
      cases hm : matchQuad (c :: r) with
      | none => simp [firstSome, hm]
      | some q => simp [firstSome, hm]

theorem dropWhile_eq_drop (p : Char → Bool) (l : List Char) :
    ∃ m, l.dropWhile p = l.drop m := by
  induction l with
  | nil => exact ⟨0, rfl⟩
  | cons c r ih =>
    by_cases hc : p c
    · obtain ⟨m, hm⟩ := ih
      exact ⟨m + 1, by simp [List.dropWhile_cons_of_pos hc, hm]⟩
    · exact ⟨0, by simp [List.dropWhile_cons_of_neg hc]⟩

theorem isPySpace_false_of_digit_or_dot (c : Char)
    (h : c.isDigit = true ∨ c = '.') : isPySpace c = false := by
  cases hps : isPySpace c
  · rfl
  · exfalso
    simp only [isPySpace, Bool.or_eq_true, decide_eq_true_eq] at hps
    rcases h with hd | rfl
    · rcases hps with ((((rfl | rfl) | rfl) | rfl) | rfl) | rfl <;>
        exact absurd hd (by decide)
    · rcases hps with ((((h | h) | h) | h) | h) | h <;> exact absurd h (by decide)

theorem dropWhile_eq_self_of_false (p : Char → Bool) (l : List Char)
    (h : ∀ c ∈ l, p c = false) : l.dropWhile p = l := by
  cases l with
  | nil => rfl
  | cons c r =>
    exact List.dropWhile_cons_of_neg (by simp [h c (List.mem_cons_self c r)])

theorem pyStrip_eq_self (l : List Char) (h : ∀ c ∈ l, isPySpace c = false) :
    pyStrip l = l := by
  rw [pyStrip, dropWhile_eq_self_of_false _ _ h,
    dropWhile_eq_self_of_false _ _ (fun c hc => h c (List.mem_reverse.1 hc)),
    List.reverse_reverse]

/-- Every character of a quad capture is a digit or a period, so the
capture survives `strip()` unchanged and cannot be the placeholder. -/
theorem matchQuad_capture_chars (cs q : List Char) (h : matchQuad cs = some q) :
    (∀ c ∈ q, c.isDigit = true ∨ c = '.') ∧ q ≠ ['*'] := by
  obtain ⟨a, b, c, d, rest, ha, hb, hc, hd, _, hq⟩ := matchQuad_eq_some cs q h
  have hmem : ∀ x ∈ q, x.isDigit = true ∨ x = '.' := by
    intro x hx
    rw [hq] at hx
    simp only [List.mem_append, List.mem_cons] at hx
    rcases hx with hx | rfl | hx | rfl | hx | rfl | hx
    · exact Or.inl (ha.2.2 x hx)
    · exact Or.inr rfl
    · exact Or.inl (hb.2.2 x hx)
    · exact Or.inr rfl
    · exact Or.inl (hc.2.2 x hx)
    · exact Or.inr rfl
    · exact Or.inl (hd.2.2 x hx)
  refine ⟨hmem, fun hstar => ?_⟩
  have : ('*').isDigit = true ∨ ('*') = '.' := hmem '*' (by rw [hstar]; simp)
  rcases this with h1 | h1 <;> exact absurd h1 (by decide)

/-- At a position where the claims' quad pattern occurs, the
per-position matcher succeeds. -/
theorem tryIpAt_isSome_of_quadAt (cs : List Char) (i : Nat) (h : quadAt cs i) :
    (tryIpAt (cs.drop i)).isSome := by
  obtain ⟨a, b, c, d, rest, ha, hb, hc, hd, heq⟩ := h
  obtain ⟨x, a', rfl⟩ : ∃ x a', a = x :: a' := by
    rcases a with _ | ⟨x, a'⟩
    · exact absurd rfl ha.1
    · exact ⟨x, a', rfl⟩
  have hx : x.isDigit := ha.2.2 x (List.mem_cons_self x a')
  have hxc : ¬ (x = ':') := fun hxx => by
    rw [hxx] at hx; exact absurd hx (by decide)
  rw [tryIpAt_eq_dropColons, heq, List.cons_append,
    List.dropWhile_cons_of_neg (by simpa using hxc), ← List.cons_append, ← heq]
  rw [heq]
  exact matchQuad_isSome (x :: a') b c d rest ha hb hc hd

/-- A successful per-position match yields an occurrence of the quad
pattern at some position. -/
theorem quadAt_of_tryIpAt_some (cs : List Char) (j : Nat) (q : List Char)
    (h : tryIpAt (cs.drop j) = some q) : ∃ i, quadAt cs i := by
  rw [tryIpAt_eq_dropColons] at h
  obtain ⟨m, hm⟩ := dropWhile_eq_drop (fun c => c = ':') (cs.drop j)
  rw [hm, List.drop_drop] at h
  obtain ⟨a, b, c, d, rest, ha, hb, hc, hd, heq, _⟩ := matchQuad_eq_some _ _ h
  exact ⟨j + m, a, b, c, d, rest, ha, hb, hc, hd, heq⟩

/-- C3: the IP artifact equals the placeholder `*` exactly when no
position of the body carries four 1–3-digit groups separated by periods
(no per-octet range validation); and whenever such a pattern does occur,
the artifact is the dotted quad standing at the first such position. -/
theorem pull_ip_spec (body : String) :
    (pull_ip body = "*" ↔ ∀ i, ¬ quadAt body.data i) ∧
    (∀ i, quadAt body.data i → (∀ j, j < i → ¬ quadAt body.data j) →
      ∃ a b c d, isOctet a ∧ isOctet b ∧ isOctet c ∧ isOctet d ∧
        (∃ rest, body.data.drop i =
          a ++ '.' :: (b ++ '.' :: (c ++ '.' :: (d ++ rest)))) ∧
        pull_ip body = String.mk (a ++ '.' :: (b ++ '.' :: (c ++ '.' :: d)))) := by
  constructor
  · constructor
    · intro hstar i hq
      cases hscan : scanFirst tryIpAt body.data with
      | none =>
        have := (scanFirst_eq_none_iff tryIpAt body.data).1 hscan i
        have hsome := tryIpAt_isSome_of_quadAt body.data i hq
        rw [this] at hsome; cases hsome
      | some cap =>
        obtain ⟨j, hj, _⟩ := scanFirst_eq_some tryIpAt body.data cap hscan
        rw [tryIpAt_eq_dropColons] at hj
        obtain ⟨hchars, hne⟩ := matchQuad_capture_chars _ _ hj
        have hstrip : pyStrip cap = cap :=
          pyStrip_eq_self cap (fun c hc =>
            isPySpace_false_of_digit_or_dot c (hchars c hc))
        rw [pull_ip, hscan] at hstar
        dsimp only at hstar
        rw [hstrip] at hstar
        have hdata : cap = ['*'] := by
          have := congrArg String.data hstar
          simpa using this
        exact hne hdata
    · intro hno
      have hnone : scanFirst tryIpAt body.data = Option.none := by
        rw [scanFirst_eq_none_iff]
        intro j
        cases hj : tryIpAt (body.data.drop j) with
        | none => rfl
        | some q =>
          obtain ⟨i, hi⟩ := quadAt_of_tryIpAt_some body.data j q hj
          exact absurd hi (hno i)
      rw [pull_ip, hnone]
  · intro i hi hmin
    have hP : (tryIpAt (body.data.drop i)).isSome :=
      tryIpAt_isSome_of_quadAt body.data i hi
    have hex : ∃ j, (tryIpAt (body.data.drop j)).isSome = true := ⟨i, hP⟩
    set p := Nat.find hex with hpdef
    have hple : p ≤ i := Nat.find_min' hex hP
    have hpspec : (tryIpAt (body.data.drop p)).isSome = true := Nat.find_spec hex
    obtain ⟨cap, hcap⟩ := Option.isSome_iff_exists.1 hpspec
    have hmin' : ∀ j, j < p → tryIpAt (body.data.drop j) = Option.none := by
      intro j hj
      have hnot := Nat.find_min hex hj
      cases hj2 : tryIpAt (body.data.drop j) with
      | none => rfl
      | some q =>
        exact absurd (show (tryIpAt (body.data.drop j)).isSome = true by
          rw [hj2]; rfl) hnot
    have hscan : scanFirst tryIpAt body.data = some cap :=
      scanFirst_at tryIpAt body.data p cap hcap hmin'
    -- identify the position the capture stands at
    have hcap' := hcap
    rw [tryIpAt_eq_dropColons] at hcap'
    set t := (body.data.drop p).takeWhile (fun c => c = ':') with htdef
    have hsplitp : body.data.drop p = t ++ (body.data.drop p).dropWhile (fun c => c = ':') := by
      rw [htdef]
      exact (List.takeWhile_append_dropWhile (p := fun c => decide (c = ':'))
        (l := body.data.drop p)).symm
    have hu : (body.data.drop p).dropWhile (fun c => c = ':') =
        body.data.drop (t.length + p) := by
      conv_lhs => rw [show (body.data.drop p).dropWhile (fun c => c = ':') =
        (t ++ (body.data.drop p).dropWhile (fun c => c = ':')).drop t.length by
          rw [List.drop_left]]
      rw [← hsplitp, List.drop_drop, Nat.add_comm p t.length]
    rw [hu] at hcap'
    set i' := t.length + p with hi'def
    obtain ⟨a, b, c, d, rest, ha, hb, hc, hd, heq, hqeq⟩ :=
      matchQuad_eq_some _ _ hcap'
    have hquadi' : quadAt body.data i' := ⟨a, b, c, d, rest, ha, hb, hc, hd, heq⟩
    have hile : i ≤ i' := by
      by_contra hlt
      exact absurd hquadi' (hmin i' (by omega))
    have hi'le : i' ≤ i := by
      by_contra hlt
      push_neg at hlt
      -- position i sits strictly inside the colon run t
      have hiplt : i - p < t.length := by omega
      obtain ⟨x, a0, rest0, hx, heq0⟩ :
          ∃ x a0 rest0, x.isDigit = true ∧ body.data.drop i = x :: (a0 ++ rest0) := by
        obtain ⟨a1, b1, c1, d1, rest1, ha1, _, _, _, heq1⟩ := hi
        rcases a1 with _ | ⟨x, a1'⟩
        · exact absurd rfl ha1.1
        · exact ⟨x, a1', _, ha1.2.2 x (List.mem_cons_self _ _), by simpa using heq1⟩
      have hdropsplit : body.data.drop i =
          t.drop (i - p) ++ body.data.drop i' := by
        have h1 : body.data.drop i = (body.data.drop p).drop (i - p) := by
          rw [List.drop_drop]; congr 1; omega
        rw [h1]
        conv_lhs => rw [hsplitp]
        rw [List.drop_append_of_le_length (by omega), hu]
      have hne : t.drop (i - p) ≠ [] := by
        intro hnil
        have := congrArg List.length hnil
        simp [List.length_drop] at this
        omega
      rcases htd : t.drop (i - p) with _ | ⟨y, ys⟩
      · exact hne htd
      · have hyt : y ∈ t := (List.drop_subset _ _) (htd ▸ List.mem_cons_self y ys)
        have hy : y = ':' := by
          have := List.mem_takeWhile_imp (htdef ▸ hyt)
          simpa using this
        rw [htd] at hdropsplit
        rw [heq0] at hdropsplit
        have : x = y := by
          have := congrArg List.head? hdropsplit
          simpa using this
        rw [this, hy] at hx
        exact absurd hx (by decide)
    have hii' : i' = i := le_antisymm hi'le hile
    rw [hii'] at heq
    refine ⟨a, b, c, d, ha, hb, hc, hd, ⟨rest, heq⟩, ?_⟩
    rw [pull_ip, hscan]
    dsimp only
    rw [hqeq, pyStrip_eq_self]
    intro ch hch
    apply isPySpace_false_of_digit_or_dot
    simp only [List.mem_append, List.mem_cons] at hch
    rcases hch with hx | rfl | hx | rfl | hx | rfl | hx
    · exact Or.inl (ha.2.2 ch hx)
    · exact Or.inr rfl
    · exact Or.inl (hb.2.2 ch hx)
    · exact Or.inr rfl
    · exact Or.inl (hc.2.2 ch hx)
    · exact Or.inr rfl
    · exact Or.inl (hd.2.2 ch hx)

/-- Witness for C3 on `999.999.999.999` (no per-octet validation), plus
the spec's round-number example. -/
theorem pull_ip_spec_witness :
    quadAt "999.999.999.999".data 0 ∧
    (∃ a b c d, isOctet a ∧ isOctet b ∧ isOctet c ∧ isOctet d ∧
      (∃ rest, "999.999.999.999".data.drop 0 =
        a ++ '.' :: (b ++ '.' :: (c ++ '.' :: (d ++ rest)))) ∧
      pull_ip "999.999.999.999" =
        String.mk (a ++ '.' :: (b ++ '.' :: (c ++ '.' :: d)))) ∧
    pull_ip "999.999.999.999" = "999.999.999.999" ∧
    pull_ip "IP: 192.168.1.1" = "192.168.1.1" ∧
    pull_ip "no address here" = "*" :=
  ⟨⟨"999".data, "999".data, "999".data, "999".data, [],
      ⟨by decide, by decide, by decide⟩, ⟨by decide, by decide, by decide⟩,
      ⟨by decide, by decide, by decide⟩, ⟨by decide, by decide, by decide⟩,
      by decide⟩,
    (pull_ip_spec "999.999.999.999").2 0
      ⟨"999".data, "999".data, "999".data, "999".data, [],
        ⟨by decide, by decide, by decide⟩, ⟨by decide, by decide, by decide⟩,
        ⟨by decide, by decide, by decide⟩, ⟨by decide, by decide, by decide⟩,
        by decide⟩
      (fun j hj => absurd hj (Nat.not_lt_zero j)),
    by decide, by decide, by decide⟩

end EmailHeaderParser
